import Mathlib

/-!
# Verification of the rust-bitcoin consensus-encoding core and PSBT raw key format

This development gives a shallow embedding, in Lean, of the compact-size
codec, the streaming decoder combinators, the PSBT raw key/value record
format (`bitcoin/src/psbt/raw.rs`), and the fee-rate multiplication
contract of the `units` crate, and proves the specified properties about
them.

Byte streams are modelled as `List Nat` (each element a byte value),
machine integers as `Nat` with explicit range hypotheses, and fallible
decoding as `Except`.
-/

namespace RustBitcoin

/-! ## Byte-level primitives shared by the codecs -/

/-- Errors produced by the byte-reader primitives of the consensus
encoding module (`read_compact_size` and fixed-width reads). -/
inductive RdErr where
  /-- The reader ran out of bytes mid-field. -/
  | eof
  /-- A compact size used a longer form than its value requires. -/
  | nonMinimal
deriving DecidableEq, Repr

/-- Little-endian encoding of `v` into exactly `k` bytes (the low `8 * k`
bits of `v`). -/
def toLE : Nat → Nat → List Nat
  | 0, _ => []
  | k + 1, v => v % 256 :: toLE k (v / 256)

/-- Read a `k`-byte little-endian unsigned integer from the front of the
stream, returning the value and the remaining bytes. -/
def readLE : Nat → List Nat → Except RdErr (Nat × List Nat)
  | 0, bs => .ok (0, bs)
  | _ + 1, [] => .error .eof
  | k + 1, b :: bs =>
    match readLE k bs with
    | .error e => .error e
    | .ok (v, r) => .ok (b + 256 * v, r)

/-- Read exactly `k` raw bytes from the front of the stream. This models
the byte-at-a-time `u8::consensus_decode` loop of `Key::decode`. -/
def readBytes : Nat → List Nat → Except RdErr (List Nat × List Nat)
  | 0, bs => .ok ([], bs)
  | _ + 1, [] => .error .eof
  | k + 1, b :: bs =>
    match readBytes k bs with
    | .error e => .error e
    | .ok (d, r) => .ok (b :: d, r)

/-- Modelled from the spec: `ReadExt::read_compact_size` of the consensus
encoding module is not among the sampled sources; the spec's §4.1 canonical
length table and non-minimality rule determine it. Read the marker byte;
values below `0xFD` are returned verbatim; markers `0xFD`/`0xFE`/`0xFF`
read a 2/4/8-byte little-endian integer and reject it if it would have fit
a shorter form. -/
def read_compact_size (bs : List Nat) : Except RdErr (Nat × List Nat) :=
  match bs with
  | [] => .error .eof
  | b :: r =>
    if b = 0xFF then
      match readLE 8 r with
      | .error e => .error e
      | .ok (x, r2) => if x < 0x100000000 then .error .nonMinimal else .ok (x, r2)
    else if b = 0xFE then
      match readLE 4 r with
      | .error e => .error e
      | .ok (x, r2) => if x < 0x10000 then .error .nonMinimal else .ok (x, r2)
    else if b = 0xFD then
      match readLE 2 r with
      | .error e => .error e
      | .ok (x, r2) => if x < 0xFD then .error .nonMinimal else .ok (x, r2)
    else .ok (b, r)

/-- Modelled from the spec: `WriteExt::emit_compact_size` is not among the
sampled sources; the spec's §4.1 table defines the canonical encoding:
1 byte for values up to `0xFC`, marker `0xFD` + 2 little-endian bytes up
to `0xFFFF`, marker `0xFE` + 4 bytes up to `0xFFFF_FFFF`, else marker
`0xFF` + 8 bytes. -/
def emit_compact_size (n : Nat) : List Nat :=
  if n ≤ 0xFC then [n]
  else if n ≤ 0xFFFF then 0xFD :: toLE 2 n
  else if n ≤ 0xFFFFFFFF then 0xFE :: toLE 4 n
  else 0xFF :: toLE 8 n

/-! ## PSBT raw key/value record format (`bitcoin/src/psbt/raw.rs`) -/

/-- Modelled from the spec: `MAX_VEC_SIZE` is the shared maximum-allocation
constant of the consensus encoding module (its numeric value, 4,000,000, is
external to the sampled sources; the spec treats it as one shared
configuration constant). -/
def MAX_VEC_SIZE : Nat := 4000000

/-- A PSBT key in its raw byte form, `<key> := <keylen> <keytype> <keydata>`
(struct `Key` of `psbt/raw.rs`). -/
structure Key where
  /-- The type of this PSBT key (a `u64`, encoded as a compact size). -/
  type_value : Nat
  /-- The key data itself in raw byte form. -/
  key_data : List Nat
deriving DecidableEq, Repr

/-- The PSBT error type (`psbt::Error`), restricted to the variants the
raw key/value module can produce. Constructors are pairwise distinct, so
the end-of-map sentinel is distinguishable from every parse error. -/
inductive Error where
  /-- `Error::NoMorePairs`: the end-of-map sentinel (`keylen == 0`). -/
  | NoMorePairs
  /-- `Error::InvalidProprietaryKey`: converting a `Key` whose type is not `0xFC`. -/
  | InvalidProprietaryKey
  /-- A `ParseError::ParseFailed` with its message, lifted into `psbt::Error`. -/
  | ParseFailed (msg : String)
  /-- `ParseError::OversizedVectorAllocation \x7b requested, max \x7d` lifted into `psbt::Error`. -/
  | OversizedVectorAllocation (requested maxAllowed : Nat)
  /-- An end-of-stream error from the underlying reader. -/
  | UnexpectedEof
  /-- A `NonMinimalVarInt` error from `read_compact_size`. -/
  | NonMinimalCompactSize
deriving DecidableEq, Repr

/-- Lift a reader-primitive result into the PSBT error type (the `?`
operator's `From` conversions in `Key::decode`). -/
def liftRd {α : Type} : Except RdErr α → Except Error α
  | .ok a => .ok a
  | .error .eof => .error .UnexpectedEof
  | .error .nonMinimal => .error .NonMinimalCompactSize

/-- `compact_size_len` of `psbt/raw.rs`: the number of bytes needed to
encode `n` as a Bitcoin compact size. -/
def compact_size_len (n : Nat) : Nat :=
  if n ≤ 0xFC then 1
  else if n ≤ 0xFFFF then 3
  else if n ≤ 0xFFFFFFFF then 5
  else 9

/-- `Key::decode` of `psbt/raw.rs`: read the compact-size `byte_size`
(`0` is the `NoMorePairs` sentinel), read the compact-size `type_value`,
require `byte_size ≥ compact_size_len type_value`, cap the resulting
`key_data` length at `MAX_VEC_SIZE` before reading it, then read the
`key_data` bytes. Returns the decoded key and the remaining stream. -/
def Key.decode (bs : List Nat) : Except Error (Key × List Nat) :=
  match liftRd (read_compact_size bs) with
  | .error e => .error e
  | .ok (byte_size, r1) =>
    if byte_size = 0 then .error .NoMorePairs
    else
      match liftRd (read_compact_size r1) with
      | .error e => .error e
      | .ok (type_value, r2) =>
        if byte_size < compact_size_len type_value then
          .error (.ParseFailed "PSBT key length shorter than compact size encoding of type value")
        else if MAX_VEC_SIZE < byte_size - compact_size_len type_value then
          .error (.OversizedVectorAllocation (byte_size - compact_size_len type_value) MAX_VEC_SIZE)
        else
          match liftRd (readBytes (byte_size - compact_size_len type_value) r2) with
          | .error e => .error e
          | .ok (kd, r3) => .ok (⟨type_value, kd⟩, r3)

/-- `impl Serialize for Key` of `psbt/raw.rs`: emit
`key_data.len() + compact_size_len type_value` as the compact-size
`keylen` (recomputed fresh from the key's fields; `Key` stores no length,
so no decoded length can be inherited), then the compact-size
`type_value`, then the raw `key_data` bytes. -/
def Key.serialize (k : Key) : List Nat :=
  emit_compact_size (k.key_data.length + compact_size_len k.type_value) ++
    emit_compact_size k.type_value ++ k.key_data

/-! ## Proprietary keys (`psbt/raw.rs`) -/

/-- `ProprietaryKey` of `psbt/raw.rs` with the default `u64` subtype.
The `pfx` field models the source's namespace-grouping byte-string field
that precedes the subtype on the wire. -/
structure ProprietaryKey where
  /-- Proprietary type byte string used for grouping keys by application. -/
  pfx : List Nat
  /-- Custom proprietary subtype (a `u64`, via the `Subtype` conversions). -/
  subtype : Nat
  /-- Additional key bytes. -/
  key : List Nat
deriving DecidableEq, Repr

/-- Modelled from the spec: `Vec<u8>::consensus_encode` (a compact-size
length followed by the raw bytes) is not among the sampled sources; the
spec's §6 wire format (`compactsize-prefixed bytes`) defines it. -/
def vecU8Encode (v : List Nat) : List Nat :=
  emit_compact_size v.length ++ v

/-- Modelled from the spec: `Vec<u8>::consensus_decode` is not among the
sampled sources; per the spec it reads a compact-size length, checks it
against the shared maximum-allocation constant before allocating, then
reads that many raw bytes. -/
def vecU8Decode (bs : List Nat) : Except Error (List Nat × List Nat) :=
  match liftRd (read_compact_size bs) with
  | .error e => .error e
  | .ok (n, r) =>
    if MAX_VEC_SIZE < n then
      .error (.OversizedVectorAllocation n MAX_VEC_SIZE)
    else liftRd (readBytes n r)

/-- `impl Encodable for ProprietaryKey` (`consensus_encode`): the
length-prefixed grouping bytes, the compact-size subtype, then the raw
`key` bytes. `consensus::encode::serialize` drains this into one buffer. -/
def propSerialize (p : ProprietaryKey) : List Nat :=
  vecU8Encode p.pfx ++ emit_compact_size p.subtype ++ p.key

/-- `impl Decodable for ProprietaryKey` (`consensus_decode`): a
length-prefixed byte string, a compact-size subtype, then `key` bytes read
up to the fixed 1024-byte DoS cap (`read_to_limit(r, &mut key, 1024)`
takes at most 1024 of the remaining bytes). -/
def propDecode (bs : List Nat) : Except Error (ProprietaryKey × List Nat) :=
  match vecU8Decode bs with
  | .error e => .error e
  | .ok (pfx, r1) =>
    match liftRd (read_compact_size r1) with
    | .error e => .error e
    | .ok (subtype, r2) => .ok (⟨pfx, subtype, r2.take 1024⟩, r2.drop 1024)

/-- Modelled from the spec: `consensus::encode::deserialize` (used by
`TryFrom<Key> for ProprietaryKey`) is not among the sampled sources; per
the spec's whole-buffer wrapper contract it runs the decoder over the full
buffer and requires it be exactly consumed, trailing bytes being an
error. -/
def deserializeProp (bs : List Nat) : Except Error ProprietaryKey :=
  match propDecode bs with
  | .error e => .error e
  | .ok (p, []) => .ok p
  | .ok (_, _ :: _) => .error (.ParseFailed "data not consumed entirely")

/-- `ProprietaryKey::to_key`: a generic `Key` with `type_value = 0xFC`
whose `key_data` is this proprietary key's own serialization. -/
def ProprietaryKey.to_key (p : ProprietaryKey) : Key :=
  ⟨0xFC, propSerialize p⟩

/-- `impl TryFrom<Key> for ProprietaryKey`: fails with
`InvalidProprietaryKey` unless `type_value == 0xFC`, otherwise delegates
to the standard whole-buffer decode of `key_data`. -/
def tryFromKey (k : Key) : Except Error ProprietaryKey :=
  if k.type_value ≠ 0xFC then .error .InvalidProprietaryKey
  else deserializeProp k.key_data

/-! ## Streaming decoder combinator protocol (`consensus_encoding`)

Modelled from the spec: the `consensus_encoding` crate's decoder
implementations (`CompactSizeDecoder`, `ArrayDecoder`, `ByteVecDecoder`,
`Decoder3`, `decode_from_slice`) are not among the sampled sources — only
their tests and bounded-model-checking harnesses are.  The spec's §4.2
decoder contract determines the model: `push_bytes` consumes from the
front every byte the decoder can use in this call and reports whether more
input is needed; `end` renders the final verdict; sub-decoders of a
compound decoder are driven strictly in field order and any failure is
tagged with the failing field.  Per the spec's §9 design note, the generic
`Decoder3` composition is reimplemented as an explicit aggregate state
machine for the tests' `Packet` type. -/

/-- Errors of the streaming compact-size and byte-vector decoders
(`UnexpectedEofError` / the non-minimal rejection of
`ByteVecDecoderError`). -/
inductive CsErr where
  /-- `end` was called before the decoder's need was satisfied. -/
  | eof
  /-- The collected compact size used a longer form than its value requires. -/
  | nonMinimal
deriving DecidableEq, Repr

/-- Total wire length (marker included) of a compact size whose first
byte is `b`. -/
def csTotalLen (b : Nat) : Nat :=
  if b < 0xFD then 1 else if b = 0xFD then 3 else if b = 0xFE then 5 else 9

/-- How many bytes the compact-size decoder needs in total, given the
bytes collected so far (one byte before the marker is known). -/
def csNeeded (buf : List Nat) : Nat :=
  match buf with
  | [] => 1
  | b :: _ => csTotalLen b

/-- Take from `input` as many bytes as are still missing to bring `buf`
up to `n` bytes; return the grown buffer and the untouched remainder.
This is the single consumption primitive of every fixed-need decoder
state. -/
def fill (n : Nat) (buf input : List Nat) : List Nat × List Nat :=
  (buf ++ input.take (n - buf.length), input.drop (n - buf.length))

/-- `CompactSizeDecoder::push_bytes` on the collected buffer: consume
every byte of `input` the decoder can use (at most up to the total length
determined by the marker byte). -/
def csPush (buf input : List Nat) : List Nat × List Nat :=
  match buf, input with
  | [], [] => ([], [])
  | [], x :: xs => fill (csTotalLen x) [x] xs
  | b :: bs, _ => fill (csTotalLen b) (b :: bs) input

/-- Little-endian value of a byte list (least-significant byte first). -/
def leVal : List Nat → Nat
  | [] => 0
  | b :: bs => b + 256 * leVal bs

/-- Decode a complete compact-size buffer: values below `0xFD` are the
single byte itself; otherwise the little-endian payload, rejected as
non-minimal if it would have fit a shorter form. -/
def csEndVal : List Nat → Except CsErr Nat
  | [] => .error .eof
  | b :: rest =>
    if b < 0xFD then .ok b
    else
      let v := leVal rest
      if b = 0xFD then (if v < 0xFD then .error .nonMinimal else .ok v)
      else if b = 0xFE then (if v < 0x10000 then .error .nonMinimal else .ok v)
      else (if v < 0x100000000 then .error .nonMinimal else .ok v)

/-- `CompactSizeDecoder::end`: insufficient input if the buffer is not
complete, otherwise the decoded (minimality-checked) value. -/
def csEnd (buf : List Nat) : Except CsErr Nat :=
  if csNeeded buf ≤ buf.length then csEndVal buf else .error .eof

/-- State of `ByteVecDecoder`: collecting the compact-size length
prefix, then collecting that many payload bytes. -/
inductive ByteVecState where
  /-- Still collecting the compact-size length prefix. -/
  | readingLen (csBuf : List Nat)
  /-- Length known; collecting the payload bytes. -/
  | readingData (len : Nat) (data : List Nat)
deriving DecidableEq, Repr

/-- Continue a `ByteVecDecoder` push from the result of the inner
compact-size push: either still hungry for length bytes, or evaluate the
completed length (surfacing its non-minimality error) and start
collecting payload from the very same call's remaining bytes. -/
def bvAfterCs (p : List Nat × List Nat) : Except CsErr (ByteVecState × List Nat) :=
  if p.1.length < csNeeded p.1 then .ok (.readingLen p.1, p.2)
  else
    match csEnd p.1 with
    | .error e => .error e
    | .ok n => .ok (.readingData n (fill n [] p.2).1, (fill n [] p.2).2)

/-- `ByteVecDecoder::push_bytes`: feed the length prefix, then the
payload, consuming every byte usable in this call. -/
def bvPush : ByteVecState → List Nat → Except CsErr (ByteVecState × List Nat)
  | .readingLen csBuf, input => bvAfterCs (csPush csBuf input)
  | .readingData n d, input => .ok (.readingData n (fill n d input).1, (fill n d input).2)

/-- Whether the byte-vector decoder has satisfied its need. -/
def bvDone : ByteVecState → Bool
  | .readingLen _ => false
  | .readingData n d => decide (n ≤ d.length)

/-- The payload collected by a byte-vector decoder. -/
def bvData : ByteVecState → List Nat
  | .readingLen _ => []
  | .readingData _ d => d

/-- `ByteVecDecoder::end`: the payload if complete, insufficient-input
otherwise. -/
def bvEnd : ByteVecState → Except CsErr (List Nat)
  | .readingLen _ => .error .eof
  | .readingData n d => if n ≤ d.length then .ok d else .error .eof

/-- The compound test record of `consensus_encoding/tests/vectors.rs`:
a 4-byte version, a compact-size-length-prefixed payload, a 4-byte
checksum. -/
structure Packet where
  /-- Fixed 4-byte version field. -/
  version : List Nat
  /-- Length-prefixed payload bytes. -/
  payload : List Nat
  /-- Fixed 4-byte checksum field. -/
  checksum : List Nat
deriving DecidableEq, Repr

/-- `Decoder3Error` for the packet decoder: any sub-decoder failure is
fatal and tagged with which field failed. -/
inductive PkErr where
  /-- The version field failed (unexpected end of input). -/
  | first
  /-- The payload field failed, with the byte-vector decoder's error. -/
  | second (e : CsErr)
  /-- The checksum field failed (unexpected end of input). -/
  | third
deriving DecidableEq, Repr

/-- State of the packet decoder: sub-decoders are driven strictly in
declared field order; field `k+1` receives no bytes until field `k`
completes. -/
inductive PacketState where
  /-- Collecting the 4 version bytes. -/
  | ver (buf : List Nat)
  /-- Version done; the byte-vector decoder is consuming the payload. -/
  | pay (v : List Nat) (bv : ByteVecState)
  /-- Version and payload done; collecting the 4 checksum bytes. -/
  | chk (v p : List Nat) (buf : List Nat)
  /-- All three fields complete; further input is left untouched. -/
  | fin (v p c : List Nat)
deriving DecidableEq, Repr

/-- Push bytes into the checksum stage (transitioning to the finished
state the moment its 4 bytes are in). -/
def pushChkP (v p buf input : List Nat) : PacketState × List Nat :=
  if (fill 4 buf input).1.length < 4 then (.chk v p (fill 4 buf input).1, (fill 4 buf input).2)
  else (.fin v p (fill 4 buf input).1, (fill 4 buf input).2)

/-- Push bytes into the payload stage, cascading into the checksum stage
within the same call once the byte-vector decoder completes. -/
def pushPayP (v : List Nat) (bv : ByteVecState) (input : List Nat) :
    Except PkErr (PacketState × List Nat) :=
  match bvPush bv input with
  | .error e => .error (.second e)
  | .ok q =>
    if bvDone q.1 then .ok (pushChkP v (bvData q.1) [] q.2)
    else .ok (.pay v q.1, q.2)

/-- `push_bytes` of the packet decoder: drive the current field,
cascading into later fields within the same call as they complete;
consume every byte usable in this call and return the rest. -/
def pktPush : PacketState → List Nat → Except PkErr (PacketState × List Nat)
  | .ver buf, input =>
    if (fill 4 buf input).1.length < 4 then .ok (.ver (fill 4 buf input).1, (fill 4 buf input).2)
    else pushPayP (fill 4 buf input).1 (.readingLen []) (fill 4 buf input).2
  | .pay v bv, input => pushPayP v bv input
  | .chk v p buf, input => .ok (pushChkP v p buf input)
  | .fin v p c, input => .ok (.fin v p c, input)

/-- Whether the packet decoder has satisfied all three fields
(`push_bytes` returns `needs_more = !pktDone`). -/
def pktDone : PacketState → Bool
  | .fin _ _ _ => true
  | _ => false

/-- `end` of the packet decoder: the finished `Packet`, or an
insufficient-input error tagged with the first unsatisfied field. -/
def pktEnd : PacketState → Except PkErr Packet
  | .ver _ => .error .first
  | .pay _ bv =>
    match bvEnd bv with
    | .error e => .error (.second e)
    | .ok _ => .error .third
  | .chk _ _ _ => .error .third
  | .fin v p c => .ok ⟨v, p, c⟩

/-- Error type of the whole-buffer entry point: a field-tagged decoder
error, or trailing bytes left after a complete decode. -/
inductive SliceErr where
  /-- The decoder itself failed, tagged with the failing field. -/
  | dec (e : PkErr)
  /-- The buffer was not exactly consumed: trailing bytes are an error. -/
  | unconsumed
deriving DecidableEq, Repr

/-- `decode_from_slice` for `Packet`: run the decoder over the full
buffer, require the buffer be exactly consumed, then render the final
verdict with `end`. -/
def decode_from_slice (data : List Nat) : Except SliceErr Packet :=
  match pktPush (.ver []) data with
  | .error e => .error (.dec e)
  | .ok q =>
    if q.2 = [] then
      match pktEnd q.1 with
      | .error e => .error (.dec e)
      | .ok p => .ok p
    else .error .unconsumed

/-- Error type of the chunked decoding driver of
`consensus_encoding/tests/vectors.rs`: a decoder error, or a violation of
the contract that each `push_bytes` call fully consumes its chunk. -/
inductive ChunkErr where
  /-- The decoder itself failed, tagged with the failing field. -/
  | dec (e : PkErr)
  /-- A `push_bytes` call left part of its chunk unconsumed. -/
  | leftover
deriving DecidableEq, Repr

/-- The loop body of `decode_chunked` (`tests/vectors.rs`): push each
chunk in turn, demand it be fully consumed, stop at `end` as soon as the
decoder no longer needs bytes, and call `end` when the chunks run out. -/
def goChunks : PacketState → List (List Nat) → Except ChunkErr Packet
  | s, [] =>
    match pktEnd s with
    | .error e => .error (.dec e)
    | .ok p => .ok p
  | s, c :: cs =>
    match pktPush s c with
    | .error e => .error (.dec e)
    | .ok q =>
      if q.2 = [] then
        if pktDone q.1 then
          match pktEnd q.1 with
          | .error e => .error (.dec e)
          | .ok p => .ok p
        else goChunks q.1 cs
      else .error .leftover

/-- `decode_chunked` of `tests/vectors.rs`, generalized from equal-size
chunks to an arbitrary partition of the input. -/
def decodeChunked (chunks : List (List Nat)) : Except ChunkErr Packet :=
  goChunks (.ver []) chunks

/-- Concatenation of a partition back into the full input. -/
def catChunks : List (List Nat) → List Nat
  | [] => []
  | c :: cs => c ++ catChunks cs

/-- Well-formedness of a stored byte-vector decoder state: stored states
are always still hungry (completion transitions out of them within the
same push). -/
def GoodBv : ByteVecState → Prop
  | .readingLen csBuf => csBuf.length < csNeeded csBuf
  | .readingData n d => d.length < n

/-- Well-formedness of a stored packet-decoder state. -/
def Good : PacketState → Prop
  | .ver buf => buf.length < 4
  | .pay _ bv => GoodBv bv
  | .chk _ _ buf => buf.length < 4
  | .fin _ _ _ => True

/-! ## Fee-rate arithmetic (`units` crate)

Modelled from the spec: the `FeeRate`, `Weight` and `Amount`
implementations are not among the sampled sources — only the
bounded-model-checking harness `units/src/fee_rate/verification.rs` is.
Its documented contract determines the model: the internal representation
is satoshis per million virtual bytes (`sat/MvB`), constructed losslessly
from `sat/kwu`; `mul_by_weight` returns exactly `ceil(rate · weight /
1000)` satoshis, and errors exactly when the exact `u64` product
`rate · weight` overflows or the ceiling exceeds `Amount::MAX`. -/

/-- The largest `u64` value. -/
def u64Max : Nat := 18446744073709551615

/-- The largest `u32` value. -/
def u32Max : Nat := 4294967295

/-- `Amount::MAX` in satoshis (21 million bitcoin). -/
def amountMaxSat : Nat := 2100000000000000

/-- Ceiling division on naturals, written as the harness computes it. -/
def ceilDiv (p q : Nat) : Nat :=
  if p % q = 0 then p / q else p / q + 1

/-- A fee rate, stored as satoshis per million virtual bytes. -/
structure FeeRate where
  /-- Satoshis per million virtual bytes (1 MvB = 4,000,000 wu = 4,000 kwu). -/
  sat_per_mvb : Nat
deriving DecidableEq, Repr

/-- A block/transaction weight in weight units. -/
structure Weight where
  /-- The raw weight-unit count. -/
  wu : Nat
deriving DecidableEq, Repr

/-- `Weight::from_wu`. -/
def Weight.from_wu (w : Nat) : Weight := ⟨w⟩

/-- `FeeRate::from_sat_per_kwu`: 1 kwu = 1/4000 MvB, so the internal
representation scales by 4000 (lossless for every `u32`). -/
def FeeRate.from_sat_per_kwu (r : Nat) : FeeRate := ⟨r * 4000⟩

/-- `NumOpResult<Amount>`: a valid satoshi amount or an arithmetic
error. -/
inductive NumOpResult where
  /-- A valid amount, in satoshis. -/
  | valid (sat : Nat)
  /-- An overflow / out-of-range error. -/
  | numError
deriving DecidableEq, Repr

/-- `FeeRate::mul_by_weight`: the exact ceiling fee
`ceil(sat_per_mvb · wu / 4,000,000)`, erroring exactly when the exact
`u64` product in sat/kwu terms overflows (`sat_per_mvb · wu` exceeds
`4000 · u64::MAX`) or the ceiling exceeds `Amount::MAX`. -/
def FeeRate.mul_by_weight (fr : FeeRate) (w : Weight) : NumOpResult :=
  if u64Max * 4000 < fr.sat_per_mvb * w.wu ∨
      amountMaxSat < ceilDiv (fr.sat_per_mvb * w.wu) 4000000 then
    .numError
  else .valid (ceilDiv (fr.sat_per_mvb * w.wu) 4000000)

/-! ## Lemmas about the byte-level primitives -/

/-- Reading back a `k`-byte little-endian encoding returns the value and
leaves the rest untouched. -/
theorem readLE_toLE (k : Nat) (v : Nat) (rest : List Nat) (h : v < 256 ^ k) :
    readLE k (toLE k v ++ rest) = .ok (v, rest) := by
  induction k generalizing v with
  | zero =>
    rw [pow_zero] at h
    have hv : v = 0 := by omega
    subst hv
    simp [toLE, readLE]
  | succ k ih =>
    have h2 : v / 256 < 256 ^ k := by
      rw [Nat.div_lt_iff_lt_mul (by norm_num)]
      calc v < 256 ^ (k + 1) := h
        _ = 256 ^ k * 256 := by ring
    simp [toLE, readLE, ih _ h2, Nat.mod_add_div]

/-- Reading back a canonical compact-size encoding returns the value and
leaves the rest untouched, for every `u64` value. -/
theorem read_emit (n : Nat) (rest : List Nat) (h : n < 2 ^ 64) :
    read_compact_size (emit_compact_size n ++ rest) = .ok (n, rest) := by
  unfold emit_compact_size
  split_ifs with h1 h2 h3
  · have ha : ¬ n = 0xFF := by omega
    have hb : ¬ n = 0xFE := by omega
    have hc : ¬ n = 0xFD := by omega
    simp [read_compact_size, ha, hb, hc]
  · have hx : ¬ n < 0xFD := by omega
    simp [read_compact_size, readLE_toLE 2 n rest (by norm_num; omega), hx]
  · have hx : ¬ n < 0x10000 := by omega
    simp [read_compact_size, readLE_toLE 4 n rest (by norm_num; omega), hx]
  · have hx : ¬ n < 0x100000000 := by omega
    simp [read_compact_size, readLE_toLE 8 n rest (by norm_num; omega), hx]

/-- Reading exactly the length of a leading block returns that block and
leaves the rest untouched. -/
theorem readBytes_append (d rest : List Nat) :
    readBytes d.length (d ++ rest) = .ok (d, rest) := by
  induction d with
  | nil => simp [readBytes]
  | cons b bs ih => simp [readBytes, ih]

/-- Every compact size takes at least one byte. -/
theorem compact_size_len_pos (n : Nat) : 1 ≤ compact_size_len n := by
  unfold compact_size_len
  split_ifs <;> omega

/-- Every compact size takes at most nine bytes. -/
theorem compact_size_len_le_nine (n : Nat) : compact_size_len n ≤ 9 := by
  unfold compact_size_len
  split_ifs <;> omega

/-! ## Lemmas about `Key` -/

/-- Full behavior of decoding a serialized key: the round trip succeeds
and consumes the buffer exactly, except that a `key_data` longer than
`MAX_VEC_SIZE` is rejected by the allocation guard. -/
theorem decode_serialize (tv : Nat) (kd : List Nat) (h1 : tv < 2 ^ 64)
    (h2 : kd.length + 9 < 2 ^ 64) :
    Key.decode (Key.serialize ⟨tv, kd⟩) =
      if MAX_VEC_SIZE < kd.length then
        .error (.OversizedVectorAllocation kd.length MAX_VEC_SIZE)
      else .ok (⟨tv, kd⟩, []) := by
  have hc1 := compact_size_len_pos tv
  have hc9 := compact_size_len_le_nine tv
  have hrb := readBytes_append kd []
  rw [List.append_nil] at hrb
  have hs : Key.serialize ⟨tv, kd⟩ =
      emit_compact_size (kd.length + compact_size_len tv) ++ (emit_compact_size tv ++ kd) := by
    simp [Key.serialize, List.append_assoc]
  have h0 : ¬ (kd.length + compact_size_len tv = 0) := by omega
  have hlt : ¬ (kd.length + compact_size_len tv < compact_size_len tv) := by omega
  have hsub : kd.length + compact_size_len tv - compact_size_len tv = kd.length := by omega
  rw [hs]
  by_cases hm : MAX_VEC_SIZE < kd.length <;>
    simp [Key.decode, liftRd, h0, hlt, hsub, hm, hrb, read_emit tv kd h1,
      read_emit (kd.length + compact_size_len tv) (emit_compact_size tv ++ kd) (by omega)]

/-! ## Claim theorems: PSBT raw key format -/

/-- C2 (amended): for every `u64` `type_value` and every byte sequence
`key_data` of length at most `MAX_VEC_SIZE`, decoding the result of
`Key::serialize` succeeds, consumes the buffer exactly and returns a `Key`
equal to the original; serialization is deterministic (definitionally, as
a pure function); and the round trip holds at the compact-size boundary
values `0xFC`, `0xFD` and `0x1_0000`.  (Without the length bound the
round trip fails: see the oversized counterexample.) -/
theorem key_roundtrip_bounded (tv : Nat) (kd : List Nat) (h1 : tv < 2 ^ 64)
    (hb : ∀ b ∈ kd, b < 256) (h2 : kd.length ≤ MAX_VEC_SIZE) :
    Key.decode (Key.serialize ⟨tv, kd⟩) = .ok (⟨tv, kd⟩, []) ∧
    Key.serialize ⟨tv, kd⟩ = Key.serialize ⟨tv, kd⟩ ∧
    Key.decode (Key.serialize ⟨0xFC, kd⟩) = .ok (⟨0xFC, kd⟩, []) ∧
    Key.decode (Key.serialize ⟨0xFD, kd⟩) = .ok (⟨0xFD, kd⟩, []) ∧
    Key.decode (Key.serialize ⟨0x10000, kd⟩) = .ok (⟨0x10000, kd⟩, []) := by
  have hM : (MAX_VEC_SIZE : Nat) = 4000000 := rfl
  have hlen : kd.length + 9 < 2 ^ 64 := by
    have : (2 : Nat) ^ 64 = 18446744073709551616 := by norm_num
    omega
  have hnm : ¬ (MAX_VEC_SIZE < kd.length) := by omega
  refine ⟨?_, rfl, ?_, ?_, ?_⟩
  · rw [decode_serialize tv kd h1 hlen, if_neg hnm]
  · rw [decode_serialize 0xFC kd (by norm_num) hlen, if_neg hnm]
  · rw [decode_serialize 0xFD kd (by norm_num) hlen, if_neg hnm]
  · rw [decode_serialize 0x10000 kd (by norm_num) hlen, if_neg hnm]

/-- Witness for C2: a concrete round trip through the amended theorem. -/
theorem key_roundtrip_bounded_witness :
    Key.decode (Key.serialize ⟨5, [1, 2]⟩) = .ok (⟨5, [1, 2]⟩, []) :=
  (key_roundtrip_bounded 5 [1, 2] (by norm_num) (by decide) (by decide)).1

/-- Counterexample for C2 as stated: a `key_data` of 4,000,001 bytes
serializes fine but fails to decode — the allocation guard rejects it —
so the round trip does not hold for *every* byte sequence. -/
theorem key_roundtrip_oversized_counterexample :
    Key.decode (Key.serialize ⟨0, List.replicate 4000001 0⟩) =
      .error (.OversizedVectorAllocation 4000001 4000000) := by
  rw [decode_serialize 0 (List.replicate 4000001 0) (by norm_num)
    (by rw [List.length_replicate]; norm_num)]
  rw [List.length_replicate, if_pos (by norm_num [MAX_VEC_SIZE])]
  rfl

/-- C3: the `keylen` field emitted by `Key::serialize` is always
`key_data.len() + compact_size_len type_value`, computed fresh from the
key's fields (`Key` stores no length field that could be inherited); in
particular a key with `type_value = 0xFD` and 3 bytes of data serializes
with `keylen = 6`. -/
theorem key_serialize_canonical_keylen (tv : Nat) (kd : List Nat)
    (h2 : kd.length + 9 < 2 ^ 64) :
    read_compact_size (Key.serialize ⟨tv, kd⟩) =
      .ok (kd.length + compact_size_len tv, emit_compact_size tv ++ kd) ∧
    Key.serialize ⟨0xFD, [1, 2, 3]⟩ = [6, 0xFD, 0xFD, 0x00, 1, 2, 3] := by
  constructor
  · have hc9 := compact_size_len_le_nine tv
    have hs : Key.serialize ⟨tv, kd⟩ =
        emit_compact_size (kd.length + compact_size_len tv) ++ (emit_compact_size tv ++ kd) := by
      simp [Key.serialize, List.append_assoc]
    rw [hs, read_emit _ _ (by omega)]
  · rfl

/-- Witness for C3 at `type_value = 0xFD`, three data bytes. -/
theorem key_serialize_canonical_keylen_witness :
    read_compact_size (Key.serialize ⟨0xFD, [1, 2, 3]⟩) =
      .ok (3 + compact_size_len 0xFD, emit_compact_size 0xFD ++ [1, 2, 3]) :=
  (key_serialize_canonical_keylen 0xFD [1, 2, 3] (by norm_num)).1

/-- C4: an input whose leading compact size decodes to `0` makes
`Key::decode` return the distinguished `NoMorePairs` end-of-map
condition; the outcome is the same whatever bytes follow (including
none), so nothing beyond that compact size is read; and `NoMorePairs` is
distinct from every other error of the decoder. -/
theorem key_decode_zero_sentinel (bs rest : List Nat)
    (h : read_compact_size bs = .ok (0, rest)) :
    Key.decode bs = .error .NoMorePairs ∧
    (∀ tail : List Nat, Key.decode (0x00 :: tail) = .error .NoMorePairs) ∧
    Key.decode [0x00] = .error .NoMorePairs ∧
    (∀ msg, Error.NoMorePairs ≠ .ParseFailed msg) ∧
    (∀ a b, Error.NoMorePairs ≠ .OversizedVectorAllocation a b) ∧
    Error.NoMorePairs ≠ .UnexpectedEof ∧
    Error.NoMorePairs ≠ .NonMinimalCompactSize ∧
    Error.NoMorePairs ≠ .InvalidProprietaryKey := by
  refine ⟨?_, ?_, rfl, by simp, by simp, by simp, by simp, by simp⟩
  · simp [Key.decode, liftRd, h]
  · intro tail
    simp [Key.decode, read_compact_size, liftRd]

/-- Witness for C4: the single byte `0x00` as the whole input. -/
theorem key_decode_zero_sentinel_witness :
    Key.decode [0x00] = .error .NoMorePairs :=
  (key_decode_zero_sentinel [0x00] [] rfl).1

/-- C5: whenever the decoded `keylen` is strictly smaller than the
canonical compact-size length of the decoded `type_value`, `Key::decode`
fails with the length-inconsistency parse error; in particular the bytes
`[0x01, 0xFD, 0xFD, 0x00]` fail to decode. -/
theorem key_decode_keylen_too_short (bs r1 r2 : List Nat) (n tv : Nat)
    (h1 : read_compact_size bs = .ok (n, r1)) (h2 : n ≠ 0)
    (h3 : read_compact_size r1 = .ok (tv, r2)) (h4 : n < compact_size_len tv) :
    Key.decode bs =
      .error (.ParseFailed "PSBT key length shorter than compact size encoding of type value") ∧
    Key.decode [0x01, 0xFD, 0xFD, 0x00] =
      .error (.ParseFailed "PSBT key length shorter than compact size encoding of type value") := by
  refine ⟨?_, rfl⟩
  simp [Key.decode, liftRd, h1, h2, h3, h4]

/-- Witness for C5: `keylen = 1` but `type_value = 0xFD` needs 3 bytes. -/
theorem key_decode_keylen_too_short_witness :
    Key.decode [0x01, 0xFD, 0xFD, 0x00] =
      .error (.ParseFailed "PSBT key length shorter than compact size encoding of type value") :=
  (key_decode_keylen_too_short [0x01, 0xFD, 0xFD, 0x00] [0xFD, 0xFD, 0x00] [] 1 0xFD
    rfl (by decide) rfl (by decide)).1

/-- C6: whenever the decoded `keylen` implies a `key_data` length
strictly greater than `MAX_VEC_SIZE`, `Key::decode` fails with the
oversized-allocation error.  No hypothesis constrains the bytes after the
type value — the error is raised before any `key_data` is read or
allocated. -/
theorem key_decode_allocation_cap (bs r1 r2 : List Nat) (n tv : Nat)
    (h1 : read_compact_size bs = .ok (n, r1)) (h2 : n ≠ 0)
    (h3 : read_compact_size r1 = .ok (tv, r2))
    (h4 : compact_size_len tv ≤ n) (h5 : MAX_VEC_SIZE < n - compact_size_len tv) :
    Key.decode bs =
      .error (.OversizedVectorAllocation (n - compact_size_len tv) MAX_VEC_SIZE) := by
  simp [Key.decode, liftRd, h1, h2, h3, h5, Nat.not_lt.mpr h4]

/-- Witness for C6: a declared `keylen` of 4,000,002 with `type_value`
`0`, so a 4,000,001-byte `key_data` would be required; the input ends
right after the type value, yet the decoder fails with the allocation
error (not an EOF), showing the check precedes the allocation. -/
theorem key_decode_allocation_cap_witness :
    Key.decode [0xFE, 0x02, 0x09, 0x3D, 0x00, 0x00] =
      .error (.OversizedVectorAllocation 4000001 4000000) :=
  key_decode_allocation_cap [0xFE, 0x02, 0x09, 0x3D, 0x00, 0x00] [0x00] [] 4000002 0
    rfl (by decide) rfl (by decide) (by decide)

/-- C10: an input whose `keylen` equals exactly the canonical
compact-size length of the `type_value` decodes successfully to a key
with empty `key_data` (the length-consistency check is `≥`, not `>`);
in particular `[0x01, 0x05]` decodes to `Key {type_value := 5, key_data := []}`. -/
theorem key_decode_empty_key_data (tv : Nat) (rest : List Nat) (h : tv < 2 ^ 64) :
    Key.decode (emit_compact_size (compact_size_len tv) ++ (emit_compact_size tv ++ rest)) =
      .ok (⟨tv, []⟩, rest) ∧
    Key.decode [0x01, 0x05] = .ok (⟨5, []⟩, []) := by
  refine ⟨?_, rfl⟩
  have hc1 := compact_size_len_pos tv
  have hc9 := compact_size_len_le_nine tv
  have h0 : ¬ (compact_size_len tv = 0) := by omega
  have hsub : compact_size_len tv - compact_size_len tv = 0 := by omega
  simp [Key.decode, liftRd, read_emit (compact_size_len tv) _ (by norm_num; omega),
    read_emit tv rest h, h0, hsub, readBytes]

/-- Witness for C10 at `type_value = 5`. -/
theorem key_decode_empty_key_data_witness :
    Key.decode (emit_compact_size (compact_size_len 5) ++ (emit_compact_size 5 ++ [])) =
      .ok (⟨5, []⟩, []) :=
  (key_decode_empty_key_data 5 [] (by norm_num)).1

/-- C7: `ProprietaryKey::to_key` builds a generic key with
`type_value = 0xFC` whose `key_data` is the proprietary key's own
serialization; the reverse `TryFrom<Key>` conversion fails with
`InvalidProprietaryKey` whenever `type_value ≠ 0xFC` and otherwise
delegates to the standard whole-buffer decode of `key_data`. -/
theorem proprietary_key_conversions (pk : ProprietaryKey) (k : Key) :
    (ProprietaryKey.to_key pk).type_value = 0xFC ∧
    (ProprietaryKey.to_key pk).key_data = propSerialize pk ∧
    (k.type_value ≠ 0xFC → tryFromKey k = .error .InvalidProprietaryKey) ∧
    (k.type_value = 0xFC → tryFromKey k = deserializeProp k.key_data) := by
  refine ⟨rfl, rfl, ?_, ?_⟩
  · intro h
    simp [tryFromKey, h]
  · intro h
    simp [tryFromKey, h]

/-- Witness for C7: a concrete proprietary key and a concrete
non-`0xFC` key. -/
theorem proprietary_key_conversions_witness :
    (ProprietaryKey.to_key ⟨[1, 2], 7, [9]⟩).type_value = 0xFC ∧
    tryFromKey ⟨5, []⟩ = .error .InvalidProprietaryKey :=
  ⟨(proprietary_key_conversions ⟨[1, 2], 7, [9]⟩ ⟨5, []⟩).1,
    (proprietary_key_conversions ⟨[1, 2], 7, [9]⟩ ⟨5, []⟩).2.2.1 (by decide)⟩

/-! ## Claim theorem: fee-rate multiplication -/

/-- Scaling the ceiling division from sat/MvB space down to sat/kwu
space: `ceil(4000·x / 4,000,000) = ceil(x / 1000)`. -/
theorem ceilDiv_scale (x : Nat) : ceilDiv (4000 * x) 4000000 = ceilDiv x 1000 := by
  unfold ceilDiv
  rw [show (4000000 : Nat) = 4000 * 1000 by norm_num, Nat.mul_mod_mul_left,
    Nat.mul_div_mul_left _ _ (by norm_num : (0 : Nat) < 4000)]
  rcases Nat.eq_zero_or_pos (x % 1000) with h | h
  · rw [h]
  · rw [if_neg (by omega), if_neg (by omega)]

/-- C9: for every `u32` fee rate `r` (sat/kwu) and `u64` weight `w` (wu),
`from_sat_per_kwu(r).mul_by_weight(from_wu(w))` returns exactly
`ceil(r·w / 1000)` satoshis whenever it returns a valid amount, and it
returns an error only when the exact product `r·w` overflows `u64` or
the exact ceiling exceeds `Amount::MAX`. -/
theorem fee_mul_by_weight_ceil (r w : Nat) (hr : r ≤ u32Max) (hw : w ≤ u64Max) :
    (∀ sat, (FeeRate.from_sat_per_kwu r).mul_by_weight (Weight.from_wu w) = .valid sat →
      sat = ceilDiv (r * w) 1000) ∧
    ((FeeRate.from_sat_per_kwu r).mul_by_weight (Weight.from_wu w) = .numError →
      u64Max < r * w ∨ amountMaxSat < ceilDiv (r * w) 1000) := by
  have e1 : (FeeRate.from_sat_per_kwu r).sat_per_mvb * (Weight.from_wu w).wu = 4000 * (r * w) := by
    simp [FeeRate.from_sat_per_kwu, Weight.from_wu]
    ring
  have e2 : (u64Max * 4000 < 4000 * (r * w)) ↔ (u64Max < r * w) := by
    rw [Nat.mul_comm u64Max 4000]
    exact Nat.mul_lt_mul_left (by norm_num)
  constructor
  · intro sat hs
    unfold FeeRate.mul_by_weight at hs
    rw [e1, ceilDiv_scale] at hs
    by_cases hcond : u64Max * 4000 < 4000 * (r * w) ∨ amountMaxSat < ceilDiv (r * w) 1000
    · rw [if_pos hcond] at hs
      exact absurd hs (by simp)
    · rw [if_neg hcond] at hs
      injection hs with h
      exact h.symm
  · intro hs
    unfold FeeRate.mul_by_weight at hs
    rw [e1, ceilDiv_scale] at hs
    by_cases hcond : u64Max * 4000 < 4000 * (r * w) ∨ amountMaxSat < ceilDiv (r * w) 1000
    · rcases hcond with h | h
      · exact Or.inl (e2.mp h)
      · exact Or.inr h
    · rw [if_neg hcond] at hs
      exact absurd hs (by simp)

/-- Witness for C9: rate 2 sat/kwu on 501 wu gives exactly
`ceil(1002/1000) = 2` satoshis. -/
theorem fee_mul_by_weight_ceil_witness :
    (2 : Nat) = ceilDiv (2 * 501) 1000 :=
  (fee_mul_by_weight_ceil 2 501 (by decide) (by decide)).1 2 (by decide)

/-! ## Claim theorem: non-minimal compact-size rejection (streaming) -/

/-- C1: the standalone compact-size decoder consumes all of
`[0xFD, 0xFC, 0x00]` in one `push_bytes` call, reports its need
satisfied, and its `end` rejects the bytes as a non-minimal encoding of
252; embedded in the compound packet decoder (as the payload-length
field), the same bytes make the whole decode fail with an error
attributed to that field (`second`). -/
theorem compact_size_non_minimal_rejected :
    csPush [] [0xFD, 0xFC, 0x00] = ([0xFD, 0xFC, 0x00], []) ∧
    csNeeded [0xFD, 0xFC, 0x00] ≤ [0xFD, 0xFC, 0x00].length ∧
    csEnd [0xFD, 0xFC, 0x00] = .error .nonMinimal ∧
    decode_from_slice [0x01, 0x00, 0x00, 0x00, 0xFD, 0xFC, 0x00, 0xDE, 0xAD, 0xBE, 0xEF] =
      .error (.dec (.second .nonMinimal)) := by
  refine ⟨rfl, by decide, rfl, rfl⟩

/-! ## Lemmas about the streaming primitives -/

/-- `fill` on an empty input leaves the buffer as is. -/
theorem fill_nil (n : Nat) (buf : List Nat) : fill n buf [] = (buf, []) := by
  simp [fill]

/-- `fill` on an already-full buffer consumes nothing. -/
theorem fill_full (n : Nat) (buf v : List Nat) (h : n ≤ buf.length) :
    fill n buf v = (buf, v) := by
  simp [fill, Nat.sub_eq_zero_of_le h]

/-- If the buffer is still short of its need after a `fill`, the input
was fully consumed. -/
theorem fill_rem_nil (n : Nat) (buf a : List Nat) (h : (fill n buf a).1.length < n) :
    (fill n buf a).2 = [] := by
  unfold fill at *
  simp only [List.length_append, List.length_take] at h
  exact List.drop_eq_nil_of_le (by omega)

/-- Splitting the input of a `fill` into two pushes gives the same
buffer and remainder as one push of the concatenation. -/
theorem fill_append (n : Nat) (buf a b : List Nat) :
    fill n buf (a ++ b) = fill n (fill n buf a).1 ((fill n buf a).2 ++ b) := by
  unfold fill
  rcases Nat.le_total (n - buf.length) a.length with h | h
  · have h1 : n - buf.length - a.length = 0 := by omega
    have h2 : n - (buf ++ a.take (n - buf.length)).length = 0 := by
      simp only [List.length_append, List.length_take]
      omega
    simp [List.take_append_eq_append_take, List.drop_append_eq_append_drop, h1, h2]
    have hm : n - (buf.length + min (n - buf.length) a.length) = 0 := by omega
    simp [hm]
  · have h3 : a.take (n - buf.length) = a := List.take_of_length_le h
    have h4 : a.drop (n - buf.length) = [] := List.drop_eq_nil_of_le h
    have h5 : n - (buf ++ a).length = n - buf.length - a.length := by
      simp only [List.length_append]
      omega
    simp [List.take_append_eq_append_take, List.drop_append_eq_append_drop, h3, h4, h5,
      List.append_assoc]
    have h6 : n - buf.length - a.length = n - (buf.length + a.length) := by omega
    simp [h6]

/-- Explicit form of a `fill` on a nonempty buffer: the head never
changes. -/
theorem fill_cons (n c : Nat) (l i : List Nat) :
    fill n (c :: l) i =
      (c :: (l ++ i.take (n - (l.length + 1))), i.drop (n - (l.length + 1))) := by
  simp [fill]

/-- Pushing into the buffer a `fill` produced is the same as filling that
buffer directly: the marker-determined need is unchanged. -/
theorem csPush_fill_res (c : Nat) (l i v : List Nat) :
    csPush (fill (csTotalLen c) (c :: l) i).1 v =
      fill (csTotalLen c) (fill (csTotalLen c) (c :: l) i).1 v := by
  simp [fill_cons, csPush]

/-- Splitting the input of a compact-size push into two pushes gives the
same buffer and remainder as one push of the concatenation. -/
theorem csPush_append (buf a b : List Nat) :
    csPush buf (a ++ b) = csPush (csPush buf a).1 ((csPush buf a).2 ++ b) := by
  rcases buf with _ | ⟨c, cs⟩
  · rcases a with _ | ⟨x, xs⟩
    · simp [csPush]
    · have e1 : csPush [] ((x :: xs) ++ b) = fill (csTotalLen x) [x] (xs ++ b) := rfl
      have e2 : csPush [] (x :: xs) = fill (csTotalLen x) [x] xs := rfl
      rw [e1, e2, fill_append, ← csPush_fill_res]
  · have e1 : csPush (c :: cs) (a ++ b) = fill (csTotalLen c) (c :: cs) (a ++ b) := rfl
    have e2 : csPush (c :: cs) a = fill (csTotalLen c) (c :: cs) a := rfl
    rw [e1, e2, fill_append, ← csPush_fill_res]

/-- If the compact-size buffer is still hungry after a push, the input
was fully consumed. -/
theorem csPush_rem_nil (buf a : List Nat)
    (h : (csPush buf a).1.length < csNeeded (csPush buf a).1) :
    (csPush buf a).2 = [] := by
  rcases buf with _ | ⟨c, cs⟩
  · rcases a with _ | ⟨x, xs⟩
    · rfl
    · have hn : csNeeded (csPush [] (x :: xs)).1 = csTotalLen x := by
        simp [csPush, fill_cons, csNeeded]
      rw [hn] at h
      exact fill_rem_nil _ _ _ h
  · have hn : csNeeded (csPush (c :: cs) a).1 = csTotalLen c := by
      simp [csPush, fill_cons, csNeeded]
    rw [hn] at h
    exact fill_rem_nil _ _ _ h

/-- Pushing into a complete compact-size buffer consumes nothing. -/
theorem csPush_full (buf v : List Nat) (h : csNeeded buf ≤ buf.length) :
    csPush buf v = (buf, v) := by
  rcases buf with _ | ⟨c, cs⟩
  · simp [csNeeded] at h
  · exact fill_full _ _ _ h

/-- Splitting the input of a byte-vector push into two pushes gives the
same state and remainder as one push of the concatenation. -/
theorem bvPush_append (s : ByteVecState) (a b : List Nat) :
    bvPush s (a ++ b) =
      match bvPush s a with
      | .error e => .error e
      | .ok q => bvPush q.1 (q.2 ++ b) := by
  cases s with
  | readingData n d =>
    simp only [bvPush]
    rw [fill_append]
  | readingLen csBuf =>
    show bvAfterCs (csPush csBuf (a ++ b)) = _
    rw [csPush_append]
    by_cases hlt : (csPush csBuf a).1.length < csNeeded (csPush csBuf a).1
    · have hr : (csPush csBuf a).2 = [] := csPush_rem_nil _ _ hlt
      simp only [bvPush, bvAfterCs, if_pos hlt, hr]
    · rcases hE : csEnd (csPush csBuf a).1 with e | n
      · rw [csPush_full _ _ (Nat.not_lt.mp hlt)]
        simp only [bvPush, bvAfterCs, if_neg hlt, hE]
      · rw [csPush_full _ _ (Nat.not_lt.mp hlt)]
        simp only [bvPush, bvAfterCs, if_neg hlt, hE]
        rw [fill_append]

/-- Pushing into a completed byte-vector decoder consumes nothing. -/
theorem bvPush_full (s : ByteVecState) (v : List Nat) (h : bvDone s = true) :
    bvPush s v = .ok (s, v) := by
  cases s with
  | readingLen csBuf => simp [bvDone] at h
  | readingData n d =>
    simp only [bvDone, decide_eq_true_eq] at h
    simp [bvPush, fill_full n d v h]

/-- If the byte-vector decoder is still hungry after a push, the input
was fully consumed. -/
theorem bvPush_rem_nil (s : ByteVecState) (a : List Nat) (s2 : ByteVecState) (r : List Nat)
    (h : bvPush s a = .ok (s2, r)) (hd : bvDone s2 = false) : r = [] := by
  cases s with
  | readingData n d =>
    simp only [bvPush, Except.ok.injEq, Prod.mk.injEq] at h
    obtain ⟨h1, h2⟩ := h
    subst h1
    subst h2
    simp only [bvDone, decide_eq_false_iff_not, Nat.not_le] at hd
    exact fill_rem_nil _ _ _ hd
  | readingLen csBuf =>
    simp only [bvPush, bvAfterCs] at h
    by_cases hlt : (csPush csBuf a).1.length < csNeeded (csPush csBuf a).1
    · rw [if_pos hlt] at h
      simp only [Except.ok.injEq, Prod.mk.injEq] at h
      obtain ⟨h1, h2⟩ := h
      subst h2
      exact csPush_rem_nil _ _ hlt
    · rw [if_neg hlt] at h
      rcases hE : csEnd (csPush csBuf a).1 with e | n
      · rw [hE] at h
        cases h
      · rw [hE] at h
        simp only [Except.ok.injEq, Prod.mk.injEq] at h
        obtain ⟨h1, h2⟩ := h
        subst h1
        subst h2
        simp only [bvDone, decide_eq_false_iff_not, Nat.not_le] at hd
        exact fill_rem_nil _ _ _ hd

/-- A byte-vector state produced by a push that is not yet done is
well-formed (still strictly hungry). -/
theorem bvPush_good (s : ByteVecState) (a : List Nat) (s2 : ByteVecState) (r : List Nat)
    (h : bvPush s a = .ok (s2, r)) (hd : bvDone s2 = false) : GoodBv s2 := by
  cases s2 with
  | readingData n d =>
    simp only [bvDone, decide_eq_false_iff_not, Nat.not_le] at hd
    simpa [GoodBv] using hd
  | readingLen csBuf2 =>
    cases s with
    | readingData n d => simp [bvPush] at h
    | readingLen csBuf =>
      simp only [bvPush, bvAfterCs] at h
      by_cases hlt : (csPush csBuf a).1.length < csNeeded (csPush csBuf a).1
      · rw [if_pos hlt] at h
        simp only [Except.ok.injEq, Prod.mk.injEq, ByteVecState.readingLen.injEq] at h
        obtain ⟨h1, _⟩ := h
        simp only [GoodBv]
        rw [← h1]
        exact hlt
      · rw [if_neg hlt] at h
        rcases hE : csEnd (csPush csBuf a).1 with e | n
        · rw [hE] at h
          cases h
        · rw [hE] at h
          simp at h

/-- Pushing the remainder of a checksum-stage push (plus fresh bytes)
through the packet decoder equals one checksum-stage push of the
concatenation. -/
theorem pushChkP_append (v p buf a b : List Nat) :
    pktPush (pushChkP v p buf a).1 ((pushChkP v p buf a).2 ++ b) =
      .ok (pushChkP v p buf (a ++ b)) := by
  by_cases hlt : (fill 4 buf a).1.length < 4
  · have hr : (fill 4 buf a).2 = [] := fill_rem_nil _ _ _ hlt
    have e : fill 4 buf (a ++ b) = fill 4 (fill 4 buf a).1 b := by
      rw [fill_append, hr, List.nil_append]
    simp only [pushChkP, if_pos hlt, hr, pktPush, List.nil_append, e]
  · have hfull : 4 ≤ (fill 4 buf a).1.length := Nat.not_lt.mp hlt
    have e : fill 4 buf (a ++ b) = ((fill 4 buf a).1, (fill 4 buf a).2 ++ b) := by
      rw [fill_append, fill_full _ _ _ hfull]
    simp only [pushChkP, if_neg hlt, pktPush, e]

/-- A checksum-stage push yields a well-formed state, and leaves no
remainder unless the packet is finished. -/
theorem pushChkP_good (v p buf i : List Nat) :
    Good (pushChkP v p buf i).1 ∧
      (pktDone (pushChkP v p buf i).1 = false → (pushChkP v p buf i).2 = []) := by
  by_cases hlt : (fill 4 buf i).1.length < 4
  · simp only [pushChkP, if_pos hlt]
    exact ⟨hlt, fun _ => fill_rem_nil _ _ _ hlt⟩
  · simp only [pushChkP, if_neg hlt]
    exact ⟨trivial, fun hd => by simp [pktDone] at hd⟩

/-- Pushing the remainder of a payload-stage push (plus fresh bytes)
through the packet decoder equals one payload-stage push of the
concatenation. -/
theorem pushPayP_append (v : List Nat) (bv : ByteVecState) (a b : List Nat) :
    (match pushPayP v bv a with
     | .error e => .error e
     | .ok q => pktPush q.1 (q.2 ++ b)) = pushPayP v bv (a ++ b) := by
  rcases hB : bvPush bv a with e | ⟨bv2, r⟩
  · have hAB : bvPush bv (a ++ b) = .error e := by rw [bvPush_append, hB]
    simp [pushPayP, hB, hAB]
  · have hAB : bvPush bv (a ++ b) = bvPush bv2 (r ++ b) := by rw [bvPush_append, hB]
    by_cases hd : bvDone bv2
    · have hBfull : bvPush bv2 (r ++ b) = .ok (bv2, r ++ b) := bvPush_full _ _ hd
      simp only [pushPayP, hB, hAB, hBfull, hd, if_pos]
      exact pushChkP_append v (bvData bv2) [] r b
    · have hr : r = [] := bvPush_rem_nil bv a bv2 r hB (by simpa using hd)
      subst hr
      simp only [pushPayP, hB, hAB, if_neg hd, pktPush, List.nil_append]

/-- A payload-stage push yields a well-formed state, and leaves no
remainder unless the packet is finished. -/
theorem pushPayP_ok_good (v : List Nat) (bv : ByteVecState) (i : List Nat)
    (s2 : PacketState) (r : List Nat) (h : pushPayP v bv i = .ok (s2, r)) :
    Good s2 ∧ (pktDone s2 = false → r = []) := by
  rcases hB : bvPush bv i with e | ⟨bv2, r2⟩
  · rw [pushPayP, hB] at h
    cases h
  · simp only [pushPayP, hB] at h
    by_cases hd : bvDone bv2
    · rw [if_pos hd] at h
      simp only [Except.ok.injEq] at h
      have h1 : (pushChkP v (bvData bv2) [] r2).1 = s2 := by rw [h]
      have h2 : (pushChkP v (bvData bv2) [] r2).2 = r := by rw [h]
      rw [← h1, ← h2]
      exact pushChkP_good v (bvData bv2) [] r2
    · rw [if_neg hd] at h
      simp only [Except.ok.injEq, Prod.mk.injEq] at h
      obtain ⟨h1, h2⟩ := h
      subst h2
      rw [← h1]
      refine ⟨bvPush_good bv i bv2 r2 hB (by simpa using hd), fun _ => ?_⟩
      exact bvPush_rem_nil bv i bv2 r2 hB (by simpa using hd)

/-- Splitting the input of a packet-decoder push into two pushes gives
the same state and remainder as one push of the concatenation (the
`push_bytes` resumability contract). -/
theorem pktPush_append (s : PacketState) (a b : List Nat) :
    pktPush s (a ++ b) =
      match pktPush s a with
      | .error e => .error e
      | .ok q => pktPush q.1 (q.2 ++ b) := by
  cases s with
  | fin v p c => rfl
  | chk v p buf => exact (pushChkP_append v p buf a b).symm
  | pay v bv => exact (pushPayP_append v bv a b).symm
  | ver buf =>
    by_cases hlt : (fill 4 buf a).1.length < 4
    · have hr : (fill 4 buf a).2 = [] := fill_rem_nil _ _ _ hlt
      have e : fill 4 buf (a ++ b) = fill 4 (fill 4 buf a).1 b := by
        rw [fill_append, hr, List.nil_append]
      simp only [pktPush, e, if_pos hlt, hr, List.nil_append]
    · have hfull : 4 ≤ (fill 4 buf a).1.length := Nat.not_lt.mp hlt
      have e : fill 4 buf (a ++ b) = ((fill 4 buf a).1, (fill 4 buf a).2 ++ b) := by
        rw [fill_append, fill_full _ _ _ hfull]
      simp only [pktPush, e, if_neg hlt]
      exact (pushPayP_append _ _ _ _).symm

/-- A well-formed packet decoder fed no bytes stays exactly where it is
(consuming zero bytes is valid and leaves the input as given). -/
theorem pktPush_nil (s : PacketState) (hg : Good s) : pktPush s [] = .ok (s, []) := by
  cases s with
  | ver buf =>
    simp only [Good] at hg
    simp [pktPush, fill_nil, hg]
  | pay v bv =>
    cases bv with
    | readingLen csBuf =>
      simp only [Good, GoodBv] at hg
      have h1 : csPush csBuf [] = (csBuf, []) := by
        cases csBuf with
        | nil => rfl
        | cons c cs => exact fill_nil _ _
      simp [pktPush, pushPayP, bvPush, bvAfterCs, h1, hg, bvDone]
    | readingData n d =>
      simp only [Good, GoodBv] at hg
      have hnd : ¬ (n ≤ d.length) := by omega
      simp [pktPush, pushPayP, bvPush, fill_nil, bvDone, hnd]
  | chk v p buf =>
    simp only [Good] at hg
    simp [pktPush, pushChkP, fill_nil, hg]
  | fin v p c => rfl

/-- A packet-decoder push yields a well-formed state, and leaves no
remainder unless the packet is finished. -/
theorem pktPush_ok_good (s : PacketState) (i : List Nat) (s2 : PacketState) (r : List Nat)
    (h : pktPush s i = .ok (s2, r)) : Good s2 ∧ (pktDone s2 = false → r = []) := by
  cases s with
  | ver buf =>
    rw [pktPush] at h
    by_cases hlt : (fill 4 buf i).1.length < 4
    · rw [if_pos hlt] at h
      simp only [Except.ok.injEq, Prod.mk.injEq] at h
      obtain ⟨h1, h2⟩ := h
      subst h2
      rw [← h1]
      exact ⟨hlt, fun _ => fill_rem_nil _ _ _ hlt⟩
    · rw [if_neg hlt] at h
      exact pushPayP_ok_good _ _ _ _ _ h
  | pay v bv => exact pushPayP_ok_good _ _ _ _ _ h
  | chk v p buf =>
    rw [pktPush] at h
    simp only [Except.ok.injEq] at h
    have h1 : (pushChkP v p buf i).1 = s2 := by rw [h]
    have h2 : (pushChkP v p buf i).2 = r := by rw [h]
    rw [← h1, ← h2]
    exact pushChkP_good v p buf i
  | fin v p c =>
    rw [pktPush] at h
    simp only [Except.ok.injEq, Prod.mk.injEq] at h
    obtain ⟨h1, h2⟩ := h
    subst h2
    rw [← h1]
    exact ⟨trivial, fun hd => by simp [pktDone] at hd⟩

/-- The chunked driving loop agrees with a single whole-buffer push: if
pushing the concatenation of the chunks from a well-formed state
consumes everything and `end` then yields `p`, the chunk loop yields the
same `p`. -/
theorem goChunks_join (chunks : List (List Nat)) (s sf : PacketState) (p : Packet)
    (hg : Good s) (hpush : pktPush s (catChunks chunks) = .ok (sf, []))
    (hend : pktEnd sf = .ok p) : goChunks s chunks = .ok p := by
  induction chunks generalizing s with
  | nil =>
    rw [show catChunks [] = ([] : List Nat) from rfl, pktPush_nil s hg] at hpush
    simp only [Except.ok.injEq, Prod.mk.injEq] at hpush
    obtain ⟨h1, _⟩ := hpush
    rw [goChunks, h1, hend]
  | cons c cs ih =>
    rw [show catChunks (c :: cs) = c ++ catChunks cs from rfl, pktPush_append] at hpush
    rcases hP : pktPush s c with e | ⟨s1, r1⟩
    · rw [hP] at hpush
      cases hpush
    · rw [hP] at hpush
      have hpush2 : pktPush s1 (r1 ++ catChunks cs) = .ok (sf, []) := hpush
      obtain ⟨hgood, hrem⟩ := pktPush_ok_good s c s1 r1 hP
      by_cases hd : pktDone s1
      · have hfin : pktPush s1 (r1 ++ catChunks cs) = .ok (s1, r1 ++ catChunks cs) := by
          cases s1 with
          | fin a b c2 => rfl
          | ver _ => simp [pktDone] at hd
          | pay _ _ => simp [pktDone] at hd
          | chk _ _ _ => simp [pktDone] at hd
        rw [hfin] at hpush2
        simp only [Except.ok.injEq, Prod.mk.injEq] at hpush2
        obtain ⟨h1, h2⟩ := hpush2
        have hr1 : r1 = [] := (List.append_eq_nil.mp h2).1
        simp only [goChunks, hP]
        rw [if_pos hr1, if_pos hd, h1, hend]
      · have hr1 : r1 = [] := hrem (by simpa using hd)
        subst hr1
        rw [List.nil_append] at hpush2
        simp only [goChunks, hP, if_true]
        rw [if_neg hd]
        exact ih s1 hgood hpush2

/-! ## Claim theorem: chunk-invariance of the compound decoder -/

/-- C8: for every byte sequence the compound packet decoder accepts
whole-buffer, feeding the same bytes through `push_bytes` in *any*
partition into consecutive chunks (arbitrary chunk sizes — in
particular 1, 2, 5, 8, 64 or a single call) yields the same decoded
packet, with every `push_bytes` call fully consuming the bytes it can
use from the front of its chunk (the chunk loop fails with `leftover`
otherwise, so success certifies full consumption of every chunk). -/
theorem packet_chunk_invariance (data : List Nat) (p : Packet) (chunks : List (List Nat))
    (h1 : decode_from_slice data = .ok p) (h2 : catChunks chunks = data) :
    decodeChunked chunks = .ok p := by
  subst h2
  rw [decode_from_slice] at h1
  rcases hP : pktPush (.ver []) (catChunks chunks) with e | ⟨s1, r1⟩
  · rw [hP] at h1
    cases h1
  · rw [hP] at h1
    have h1b : (if r1 = [] then
        (match pktEnd s1 with
         | .error e => .error (.dec e)
         | .ok p => .ok p)
      else (.error .unconsumed : Except SliceErr Packet)) = .ok p := h1
    by_cases hr : r1 = []
    · rw [if_pos hr] at h1b
      rcases hE : pktEnd s1 with e2 | pp
      · rw [hE] at h1b
        cases h1b
      · rw [hE] at h1b
        have hpp : pp = p := by
          injection h1b
        subst hpp
        subst hr
        exact goChunks_join chunks (.ver []) s1 pp (by simp [Good]) hP hE
    · rw [if_neg hr] at h1b
      cases h1b

/-- Witness for C8: the valid small-payload vector of the source's test
suite, split into chunks of five. -/
theorem packet_chunk_invariance_witness :
    decodeChunked [[0x01, 0x00, 0x00, 0x00, 0x03], [0xAA, 0xBB, 0xCC, 0xDE, 0xAD], [0xBE, 0xEF]] =
      .ok ⟨[1, 0, 0, 0], [0xAA, 0xBB, 0xCC], [0xDE, 0xAD, 0xBE, 0xEF]⟩ :=
  packet_chunk_invariance
    [0x01, 0x00, 0x00, 0x00, 0x03, 0xAA, 0xBB, 0xCC, 0xDE, 0xAD, 0xBE, 0xEF]
    ⟨[1, 0, 0, 0], [0xAA, 0xBB, 0xCC], [0xDE, 0xAD, 0xBE, 0xEF]⟩
    [[0x01, 0x00, 0x00, 0x00, 0x03], [0xAA, 0xBB, 0xCC, 0xDE, 0xAD], [0xBE, 0xEF]]
    rfl rfl

end RustBitcoin
